import Mathlib

/-!
# Verification of the `lcp` crate (`src/lib.rs`, `src/main.rs`)

A Rust `&str` is a UTF-8 byte slice whose contents decode to a sequence of
Unicode scalar values; Rust `char` and Lean `Char` are both Unicode scalar
values.  We embed a `&str` by its decoded character sequence `List Char`;
`str::len` (the byte length) is recovered as the sum of the UTF-8 sizes of
the characters.  Fallible operations (byte slicing that may panic on a
non-character-boundary index) return `Option`, with `none` standing for a
Rust panic, and this `none` is propagated by every caller, matching Rust's
unwinding.
-/

namespace Lcp

/-- `str::len` of the embedded string: the total UTF-8 byte length. -/
def byteLen (s : List Char) : Nat := (s.map Char.utf8Size).sum

/-- The byte slice `&a[..i]` of Rust, on the decoded view: consume whole
characters until exactly `i` bytes are covered.  Returns `none` when `i`
is out of bounds or falls strictly inside the UTF-8 encoding of a
character — exactly the two conditions under which Rust's `&a[..i]`
panics. -/
def decodePrefix : List Char → Nat → Option (List Char)
  | _, 0 => some []
  | [], _ + 1 => none
  | c :: rest, n + 1 =>
    if c.utf8Size ≤ n + 1 then
      (decodePrefix rest (n + 1 - c.utf8Size)).map (fun p => c :: p)
    else none

/-- The loop `for (i, (ac, bc)) in a.chars().zip(b.chars()).enumerate()`
of `longest_common_prefix`: the index of the first position at which the
zipped character streams disagree, `none` if the zip is exhausted without
a disagreement. -/
def firstDiff : List Char → List Char → Option Nat
  | a :: as, b :: bs =>
    if a = b then (firstDiff as bs).map (fun n => n + 1) else some 0
  | _, _ => none

/-- The scan part of `longest_common_prefix` (everything after the
`ptr::eq` fast path): on the first character disagreement at index `i`,
return the byte slice `&a[..i]`; otherwise return the input of smaller
byte length, tie broken towards `b`. -/
def lcpScan (a b : List Char) : Option (List Char) :=
  match firstDiff a b with
  | some i => decodePrefix a i
  | none => if byteLen a < byteLen b then some a else some b

/-- `longest_common_prefix` of `src/lib.rs`.  The source's fast path fires
on `ptr::eq(a, b)`, which in Rust implies the two strings are equal as
values; pointer identity itself is not observable at the value level, so
the fast path is embedded as the widest value-level condition it can fire
under, content equality.  `lcpScan_self` below shows the scan agrees with
the fast path whenever the guard can hold, so any narrower guard yields
the same function. -/
def longest_common_prefix (a b : List Char) : Option (List Char) :=
  if a = b then some a else lcpScan a b

/-- Which `return` of the scan fires, hence which input storage the
returned `&str` aliases: the sub-slice `&a[..i]` of the first argument,
the first argument `a` whole, or the second argument `b` whole. -/
inductive Aliased where
  | slice : Nat → Aliased
  | first : Aliased
  | second : Aliased
deriving DecidableEq

/-- The scan of `longest_common_prefix` instrumented to report its
return site instead of the returned value, with control flow identical
to `lcpScan`: `&a[..i]` on the first character disagreement, else `a`
when `a.len() < b.len()`, else `b`.  `lcpScan_eq_interpret` below proves
the two are the same function up to reading the site back as a value. -/
def lcpScanReturn (a b : List Char) : Aliased :=
  match firstDiff a b with
  | some i => Aliased.slice i
  | none => if byteLen a < byteLen b then Aliased.first else Aliased.second

/-- Reading a return site back as the value the scan returns there. -/
def interpretAliased (a b : List Char) : Aliased → Option (List Char)
  | Aliased.slice i => decodePrefix a i
  | Aliased.first => some a
  | Aliased.second => some b

/-- The loop of `longest_common_prefix_in`, with the
`if lcp.is_empty() { return Some(lcp) }` short circuit. -/
def lcpInLoop (lcp : List Char) : List (List Char) → Option (List Char)
  | [] => some lcp
  | cur :: rest =>
    match longest_common_prefix lcp cur with
    | none => none
    | some l => if l.isEmpty then some l else lcpInLoop l rest

/-- `longest_common_prefix_in` of `src/lib.rs`.  Outer `none` is a panic
propagated out of `longest_common_prefix`; `some none` is the Rust return
value `None` (empty iterator); `some (some l)` is the Rust `Some(l)`. -/
def longest_common_prefix_in : List (List Char) → Option (Option (List Char))
  | [] => some none
  | a :: rest => (lcpInLoop a rest).map some

/-- The left fold of `longest_common_prefix` seeded with the first
element, panics propagated: simultaneously the fold named by the spec's
fold-consistency property and `Iterator::reduce` as used by `main`. -/
def foldLcp (a : List Char) (rest : List (List Char)) : Option (List Char) :=
  rest.foldl (fun acc cur => acc.bind (fun l => longest_common_prefix l cur)) (some a)

/-- The loop of `longest_common_prefix_in` with the short-circuit early
return removed, the variant the spec declares equivalent. -/
def lcpInLoopNoSC (lcp : List Char) : List (List Char) → Option (List Char)
  | [] => some lcp
  | cur :: rest =>
    match longest_common_prefix lcp cur with
    | none => none
    | some l => lcpInLoopNoSC l rest

/-- `longest_common_prefix_in` without its short-circuit early return. -/
def longest_common_prefix_in_noSC : List (List Char) → Option (Option (List Char))
  | [] => some none
  | a :: rest => (lcpInLoopNoSC a rest).map some

/-- The character-wise longest common prefix, as the spec describes it:
the longest front-anchored run on which the two sequences agree
character by character. -/
def charwiseLcp : List Char → List Char → List Char
  | a :: as, b :: bs => if a = b then a :: charwiseLcp as bs else []
  | _, _ => []

/-! ## The command-line front end (`src/main.rs`) -/

/-- Observable outcome of one run of `main`: the usage message on the
error stream (empty argument list), one line on standard output, or a
panic aborting the process. -/
inductive MainOut where
  | usage : MainOut
  | printed : List Char → MainOut
  | panicked : MainOut
deriving DecidableEq

/-- The process exit status for each outcome: `main` returns `()` on both
normal paths, hence status 0; a Rust panic terminates with status 101. -/
def exitCode : MainOut → Nat
  | MainOut.usage => 0
  | MainOut.printed _ => 0
  | MainOut.panicked => 101

/-- The usage line `main` prints to stderr. -/
def usageLine : List Char := "Usage: lcp [word...]".data

/-- The placeholder `main` prints for an empty prefix. -/
def emptyMarker : List Char := "<empty>".data

/-- What (if anything) the run writes to the error stream.  The panic
message Rust prints on unwind is not modelled. -/
def errStream : MainOut → Option (List Char)
  | MainOut.usage => some usageLine
  | _ => none

/-- What (if anything) the run writes to standard output. -/
def outStream : MainOut → Option (List Char)
  | MainOut.printed l => some l
  | _ => none

/-- `main` of `src/main.rs`, as a function of the argument list after
`skip(1)` (the program name removed): `reduce` the arguments with
`longest_common_prefix`, print the result (or `<empty>`) on stdout, or
the usage line on stderr when no arguments were supplied. -/
def mainRun (args : List (List Char)) : MainOut :=
  match args with
  | [] => MainOut.usage
  | a :: rest =>
    match foldLcp a rest with
    | none => MainOut.panicked
    | some l => MainOut.printed (if l.isEmpty then emptyMarker else l)

/-! ## Basic lemmas about the embedded primitives -/

theorem byteLen_nil : byteLen [] = 0 := rfl

theorem byteLen_cons (c : Char) (s : List Char) :
    byteLen (c :: s) = c.utf8Size + byteLen s := by
  simp [byteLen]

theorem byteLen_append (s t : List Char) :
    byteLen (s ++ t) = byteLen s + byteLen t := by
  simp [byteLen]

theorem byteLen_pos (c : Char) (s : List Char) : 0 < byteLen (c :: s) := by
  have := c.utf8Size_pos
  rw [byteLen_cons]
  omega

theorem prefix_byteLen_le {a b : List Char} (h : a <+: b) :
    byteLen a ≤ byteLen b := by
  obtain ⟨t, rfl⟩ := h
  rw [byteLen_append]
  omega

theorem eq_of_prefix_of_byteLen_eq {a b : List Char} (h : a <+: b)
    (hl : byteLen a = byteLen b) : a = b := by
  obtain ⟨t, rfl⟩ := h
  rw [byteLen_append] at hl
  cases t with
  | nil => simp
  | cons c u =>
    have := byteLen_pos c u
    omega

theorem firstDiff_nil_left (b : List Char) : firstDiff [] b = none := by
  cases b <;> rfl

theorem firstDiff_self (a : List Char) : firstDiff a a = none := by
  induction a with
  | nil => rfl
  | cons c t ih => simp [firstDiff, ih]

theorem firstDiff_comm (a b : List Char) : firstDiff a b = firstDiff b a := by
  induction a generalizing b with
  | nil => cases b <;> rfl
  | cons c t ih =>
    cases b with
    | nil => rfl
    | cons d u =>
      by_cases h : c = d
      · subst h
        simp [firstDiff, ih u]
      · simp [firstDiff, h, Ne.symm h]

theorem firstDiff_nil_right (a : List Char) : firstDiff a [] = none := by
  cases a <;> rfl

theorem firstDiff_cons_cons (c d : Char) (t u : List Char) :
    firstDiff (c :: t) (d :: u) =
      if c = d then (firstDiff t u).map (fun n => n + 1) else some 0 := rfl

theorem firstDiff_none_prefix {a b : List Char} (h : firstDiff a b = none) :
    a <+: b ∨ b <+: a := by
  induction a generalizing b with
  | nil => exact Or.inl (List.nil_prefix)
  | cons c t ih =>
    cases b with
    | nil => exact Or.inr (List.nil_prefix)
    | cons d u =>
      rw [firstDiff_cons_cons] at h
      by_cases hcd : c = d
      · subst hcd
        rw [if_pos rfl, Option.map_eq_none'] at h
        rcases ih h with ⟨s, rfl⟩ | ⟨s, rfl⟩
        · exact Or.inl ⟨s, rfl⟩
        · exact Or.inr ⟨s, rfl⟩
      · rw [if_neg hcd] at h
        exact absurd h (by simp)

theorem firstDiff_take {a b : List Char} {i : Nat} (h : firstDiff a b = some i) :
    a.take i = b.take i := by
  induction a generalizing b i with
  | nil => rw [firstDiff_nil_left] at h; exact absurd h (by simp)
  | cons c t ih =>
    cases b with
    | nil => rw [firstDiff_nil_right] at h; exact absurd h (by simp)
    | cons d u =>
      rw [firstDiff_cons_cons] at h
      by_cases hcd : c = d
      · subst hcd
        rw [if_pos rfl, Option.map_eq_some'] at h
        obtain ⟨j, hj, rfl⟩ := h
        simp [List.take_succ_cons, ih hj]
      · rw [if_neg hcd, Option.some.injEq] at h
        subst h
        simp

theorem firstDiff_lt_length {a b : List Char} {i : Nat}
    (h : firstDiff a b = some i) : i < a.length ∧ i < b.length := by
  induction a generalizing b i with
  | nil => rw [firstDiff_nil_left] at h; exact absurd h (by simp)
  | cons c t ih =>
    cases b with
    | nil => rw [firstDiff_nil_right] at h; exact absurd h (by simp)
    | cons d u =>
      rw [firstDiff_cons_cons] at h
      by_cases hcd : c = d
      · subst hcd
        rw [if_pos rfl, Option.map_eq_some'] at h
        obtain ⟨j, hj, rfl⟩ := h
        have := ih hj
        simp only [List.length_cons]
        omega
      · rw [if_neg hcd, Option.some.injEq] at h
        subst h
        simp only [List.length_cons]
        omega

theorem decodePrefix_zero (s : List Char) : decodePrefix s 0 = some [] := by
  cases s <;> rfl

theorem decodePrefix_congr {a b : List Char} {i : Nat}
    (h : a.take i = b.take i) : decodePrefix a i = decodePrefix b i := by
  induction a generalizing b i with
  | nil =>
    cases i with
    | zero => rw [decodePrefix_zero, decodePrefix_zero]
    | succ n =>
      cases b with
      | nil => rfl
      | cons d u => simp at h
  | cons c t ih =>
    cases i with
    | zero => rw [decodePrefix_zero, decodePrefix_zero]
    | succ n =>
      cases b with
      | nil => simp at h
      | cons d u =>
        simp only [List.take_succ_cons, List.cons.injEq] at h
        obtain ⟨rfl, htail⟩ := h
        show decodePrefix (c :: t) (n + 1) = decodePrefix (c :: u) (n + 1)
        simp only [decodePrefix]
        by_cases hle : c.utf8Size ≤ n + 1
        · rw [if_pos hle, if_pos hle]
          have hsub : n + 1 - c.utf8Size ≤ n := by
            have := c.utf8Size_pos
            omega
          have hteq : t.take (n + 1 - c.utf8Size) = u.take (n + 1 - c.utf8Size) := by
            have h1 : t.take (n + 1 - c.utf8Size) = (t.take n).take (n + 1 - c.utf8Size) := by
              rw [List.take_take, Nat.min_eq_left hsub]
            have h2 : u.take (n + 1 - c.utf8Size) = (u.take n).take (n + 1 - c.utf8Size) := by
              rw [List.take_take, Nat.min_eq_left hsub]
            rw [h1, htail, ← h2]
          rw [ih hteq]
        · rw [if_neg hle, if_neg hle]

/-! ## Lemmas about the pairwise scan -/

theorem lcpScan_self (a : List Char) : lcpScan a a = some a := by
  unfold lcpScan
  rw [firstDiff_self]
  simp

theorem longest_common_prefix_self (a : List Char) :
    longest_common_prefix a a = some a := by
  unfold longest_common_prefix
  rw [if_pos rfl]

theorem lcpScan_eq_interpret (a b : List Char) :
    lcpScan a b = interpretAliased a b (lcpScanReturn a b) := by
  unfold lcpScan lcpScanReturn
  cases hfd : firstDiff a b with
  | some i => rfl
  | none =>
    show (if byteLen a < byteLen b then some a else some b) =
      interpretAliased a b
        (if byteLen a < byteLen b then Aliased.first else Aliased.second)
    by_cases h : byteLen a < byteLen b
    · rw [if_pos h, if_pos h]
      rfl
    · rw [if_neg h, if_neg h]
      rfl

theorem longest_common_prefix_nil_left (b : List Char) :
    longest_common_prefix [] b = some [] := by
  unfold longest_common_prefix
  by_cases h : ([] : List Char) = b
  · rw [if_pos h]
  · rw [if_neg h]
    unfold lcpScan
    rw [firstDiff_nil_left]
    cases b with
    | nil => exact absurd rfl h
    | cons c t =>
      show (if byteLen [] < byteLen (c :: t) then some [] else some (c :: t)) = some []
      rw [byteLen_nil, if_pos (byteLen_pos c t)]

/-! ## Lemmas about the fold in `longest_common_prefix_in` and `main` -/

theorem foldLcp_none_acc (l : List (List Char)) :
    l.foldl (fun acc cur => acc.bind (fun s => longest_common_prefix s cur))
      none = none := by
  induction l with
  | nil => rfl
  | cons c t ih => simpa using ih

theorem foldLcp_nil_acc (l : List (List Char)) : foldLcp [] l = some [] := by
  induction l with
  | nil => rfl
  | cons c t ih =>
    unfold foldLcp at ih ⊢
    rw [List.foldl_cons]
    have hstep : (some ([] : List Char)).bind
        (fun s => longest_common_prefix s c) = some [] := by
      simp [longest_common_prefix_nil_left]
    rw [hstep]
    exact ih

theorem lcpInLoop_eq_foldLcp (a : List Char) (l : List (List Char)) :
    lcpInLoop a l = foldLcp a l := by
  induction l generalizing a with
  | nil => rfl
  | cons cur rest ih =>
    unfold lcpInLoop foldLcp
    rw [List.foldl_cons]
    cases hl : longest_common_prefix a cur with
    | none =>
      simp only [hl, Option.some_bind]
      exact (foldLcp_none_acc rest).symm
    | some l' =>
      cases l' with
      | nil =>
        simp only [hl, Option.some_bind, List.isEmpty_nil, if_pos rfl]
        exact (foldLcp_nil_acc rest).symm
      | cons c t =>
        simp only [hl, Option.some_bind, List.isEmpty_cons, Bool.false_eq_true,
          if_neg (Bool.false_ne_true)]
        exact ih (c :: t)

theorem lcpInLoopNoSC_eq_foldLcp (a : List Char) (l : List (List Char)) :
    lcpInLoopNoSC a l = foldLcp a l := by
  induction l generalizing a with
  | nil => rfl
  | cons cur rest ih =>
    unfold lcpInLoopNoSC foldLcp
    rw [List.foldl_cons]
    cases hl : longest_common_prefix a cur with
    | none =>
      simp only [hl, Option.some_bind]
      exact (foldLcp_none_acc rest).symm
    | some l' =>
      simp only [hl, Option.some_bind]
      exact ih l'

/-! ## Lemmas about the character-wise longest common prefix -/

theorem charwiseLcp_nil_left (b : List Char) : charwiseLcp [] b = [] := by
  cases b <;> rfl

theorem charwiseLcp_nil_right (a : List Char) : charwiseLcp a [] = [] := by
  cases a <;> rfl

theorem charwiseLcp_cons_cons (c d : Char) (t u : List Char) :
    charwiseLcp (c :: t) (d :: u) =
      if c = d then c :: charwiseLcp t u else [] := rfl

theorem charwiseLcp_comm (a b : List Char) :
    charwiseLcp a b = charwiseLcp b a := by
  induction a generalizing b with
  | nil => rw [charwiseLcp_nil_left, charwiseLcp_nil_right]
  | cons c t ih =>
    cases b with
    | nil => rw [charwiseLcp_nil_left, charwiseLcp_nil_right]
    | cons d u =>
      rw [charwiseLcp_cons_cons, charwiseLcp_cons_cons]
      by_cases h : c = d
      · subst h
        rw [if_pos rfl, if_pos rfl, ih u]
      · rw [if_neg h, if_neg (Ne.symm h)]

theorem charwiseLcp_prefix_left (a b : List Char) : charwiseLcp a b <+: a := by
  induction a generalizing b with
  | nil => rw [charwiseLcp_nil_left]
  | cons c t ih =>
    cases b with
    | nil => rw [charwiseLcp_nil_right]; exact List.nil_prefix
    | cons d u =>
      rw [charwiseLcp_cons_cons]
      by_cases h : c = d
      · rw [if_pos h]
        exact List.cons_prefix_cons.mpr ⟨rfl, ih u⟩
      · rw [if_neg h]
        exact List.nil_prefix

theorem charwiseLcp_prefix_right (a b : List Char) : charwiseLcp a b <+: b := by
  rw [charwiseLcp_comm]
  exact charwiseLcp_prefix_left b a

theorem prefix_charwiseLcp {q a b : List Char} (ha : q <+: a) (hb : q <+: b) :
    q <+: charwiseLcp a b := by
  induction q generalizing a b with
  | nil => exact List.nil_prefix
  | cons c t ih =>
    obtain ⟨s, rfl⟩ := ha
    obtain ⟨r, rfl⟩ := hb
    simp only [List.cons_append]
    rw [charwiseLcp_cons_cons, if_pos rfl]
    exact List.cons_prefix_cons.mpr
      ⟨rfl, ih (List.prefix_append t s) (List.prefix_append t r)⟩

theorem charwiseLcp_of_prefix_left {a b : List Char} (h : a <+: b) :
    charwiseLcp a b = a := by
  induction a generalizing b with
  | nil => rw [charwiseLcp_nil_left]
  | cons c t ih =>
    obtain ⟨s, rfl⟩ := h
    simp only [List.cons_append]
    rw [charwiseLcp_cons_cons, if_pos rfl, ih (List.prefix_append t s)]

theorem charwiseLcp_eq_take_of_firstDiff {a b : List Char} {i : Nat}
    (h : firstDiff a b = some i) : charwiseLcp a b = a.take i := by
  induction a generalizing b i with
  | nil => rw [firstDiff_nil_left] at h; exact absurd h (by simp)
  | cons c t ih =>
    cases b with
    | nil => rw [firstDiff_nil_right] at h; exact absurd h (by simp)
    | cons d u =>
      rw [firstDiff_cons_cons] at h
      rw [charwiseLcp_cons_cons]
      by_cases hcd : c = d
      · subst hcd
        rw [if_pos rfl, Option.map_eq_some'] at h
        obtain ⟨j, hj, rfl⟩ := h
        rw [if_pos rfl, List.take_succ_cons, ih hj]
      · rw [if_neg hcd, Option.some.injEq] at h
        subst h
        rw [if_neg hcd, List.take_zero]

theorem charwiseLcp_of_firstDiff_none {a b : List Char}
    (h : firstDiff a b = none) :
    charwiseLcp a b = a ∨ charwiseLcp a b = b := by
  rcases firstDiff_none_prefix h with hp | hp
  · exact Or.inl (charwiseLcp_of_prefix_left hp)
  · refine Or.inr ?_
    rw [charwiseLcp_comm]
    exact charwiseLcp_of_prefix_left hp

/-! ## Single-byte (ASCII) inputs -/

theorem byteLen_of_ascii {a : List Char} (h : ∀ c ∈ a, c.utf8Size = 1) :
    byteLen a = a.length := by
  induction a with
  | nil => rfl
  | cons c t ih =>
    rw [byteLen_cons, h c (by simp), ih (fun x hx => h x (by simp [hx]))]
    simp only [List.length_cons]
    omega

theorem decodePrefix_of_ascii {a : List Char} (h : ∀ c ∈ a, c.utf8Size = 1) :
    ∀ i, i ≤ a.length → decodePrefix a i = some (a.take i) := by
  induction a with
  | nil =>
    intro i hi
    have : i = 0 := Nat.le_zero.mp hi
    subst this
    rfl
  | cons c t ih =>
    intro i hi
    cases i with
    | zero => rw [decodePrefix_zero, List.take_zero]
    | succ n =>
      have hc : c.utf8Size = 1 := h c (by simp)
      show decodePrefix (c :: t) (n + 1) = some ((c :: t).take (n + 1))
      simp only [decodePrefix, hc]
      rw [if_pos (by omega)]
      have hn : n + 1 - 1 = n := rfl
      rw [hn, ih (fun x hx => h x (by simp [hx])) n (by
        simpa using Nat.succ_le_succ_iff.mp hi)]
      rw [List.take_succ_cons]
      rfl

theorem lcp_eq_charwiseLcp_of_ascii {a b : List Char}
    (ha : ∀ c ∈ a, c.utf8Size = 1) (hb : ∀ c ∈ b, c.utf8Size = 1) :
    longest_common_prefix a b = some (charwiseLcp a b) := by
  by_cases hab : a = b
  · subst hab
    rw [longest_common_prefix_self, charwiseLcp_of_prefix_left (List.prefix_refl a)]
  · unfold longest_common_prefix
    rw [if_neg hab]
    unfold lcpScan
    cases hfd : firstDiff a b with
    | some i =>
      show decodePrefix a i = some (charwiseLcp a b)
      rw [decodePrefix_of_ascii ha i (Nat.le_of_lt (firstDiff_lt_length hfd).1),
        charwiseLcp_eq_take_of_firstDiff hfd]
    | none =>
      show (if byteLen a < byteLen b then some a else some b) =
        some (charwiseLcp a b)
      rcases firstDiff_none_prefix hfd with hp | hp
      · have h1 := charwiseLcp_of_prefix_left hp
        have hlen : a.length < b.length := by
          rcases Nat.lt_or_ge a.length b.length with h | h
          · exact h
          · exact absurd (hp.eq_of_length_le h) hab
        rw [byteLen_of_ascii ha, byteLen_of_ascii hb, if_pos hlen, h1]
      · have h1 : charwiseLcp a b = b := by
          rw [charwiseLcp_comm]
          exact charwiseLcp_of_prefix_left hp
        have hlen : b.length ≤ a.length := hp.length_le
        rw [byteLen_of_ascii ha, byteLen_of_ascii hb,
          if_neg (Nat.not_lt.mpr hlen), h1]

/-! ## The claims -/

/-- C1 (code bug, witnessing evaluation): on the inputs "ééz" and "ééw" the
first character difference is at character index 2, but the code slices the
first 2 BYTES of its first argument, yielding "é" — strictly shorter than
the character-wise longest common prefix "éé".  The enumeration index of a
`chars()` loop is a character count, yet it is used as a byte offset into
the UTF-8 storage. -/
theorem longest_common_prefix_truncates_multibyte :
    longest_common_prefix ['é', 'é', 'z'] ['é', 'é', 'w'] = some ['é'] ∧
      charwiseLcp ['é', 'é', 'z'] ['é', 'é', 'w'] = ['é', 'é'] :=
  ⟨by decide, by decide⟩

/-- C2 (code bug, witnessing evaluation): on the inputs "éa" and "éb" the
first character difference is at character index 1, and the byte slice
taken at offset 1 falls strictly inside the two-byte encoding of 'é', so
the call panics (modelled as `none`): the function is not total. -/
theorem longest_common_prefix_panics_on_multibyte :
    longest_common_prefix ['é', 'a'] ['é', 'b'] = none := by decide

/-- C3: `longest_common_prefix_in` of the empty collection is the Rust
`None`, and on any non-empty collection it equals the left fold of
`longest_common_prefix` seeded with the first element, wrapped in `Some`
(panic propagation included on both sides). -/
theorem longest_common_prefix_in_eq_fold :
    longest_common_prefix_in [] = some none ∧
    ∀ (a : List Char) (rest : List (List Char)),
      longest_common_prefix_in (a :: rest) = (foldLcp a rest).map some := by
  refine ⟨rfl, fun a rest => ?_⟩
  show (lcpInLoop a rest).map some = (foldLcp a rest).map some
  rw [lcpInLoop_eq_foldLcp]

/-- C4: the empty collection yields the absent value (Rust `None`), the
one-element collection holding the empty string yields a present empty
result (Rust `Some("")`), and the two outcomes are distinct values. -/
theorem collection_lcp_absent_vs_empty :
    longest_common_prefix_in [] = some none ∧
      longest_common_prefix_in [[]] = some (some []) ∧
      some (none : Option (List Char)) ≠ some (some ([] : List Char)) :=
  ⟨rfl, rfl, by simp⟩

/-- C5: deleting the `if lcp.is_empty() { return Some(lcp) }` short
circuit from `longest_common_prefix_in` leaves the returned value
unchanged on every input collection. -/
theorem removing_short_circuit_preserves_result :
    ∀ l : List (List Char),
      longest_common_prefix_in_noSC l = longest_common_prefix_in l := by
  intro l
  cases l with
  | nil => rfl
  | cons a rest =>
    show (lcpInLoopNoSC a rest).map some = (lcpInLoop a rest).map some
    rw [lcpInLoopNoSC_eq_foldLcp, lcpInLoop_eq_foldLcp]

/-- C6: the scan alone (the function with the identity fast path omitted)
returns the same value as `longest_common_prefix` on every pair of
inputs, so the fast path is purely an optimization. -/
theorem omitting_fast_path_preserves_result :
    ∀ a b : List Char, lcpScan a b = longest_common_prefix a b := by
  intro a b
  unfold longest_common_prefix
  by_cases h : a = b
  · subst h
    rw [if_pos rfl, lcpScan_self]
  · rw [if_neg h]

/-- C7: `longest_common_prefix` is commutative: swapping the two
arguments yields the same value (the same character data, the same
length, and a panic exactly when the original panics). -/
theorem longest_common_prefix_comm :
    ∀ a b : List Char, longest_common_prefix a b = longest_common_prefix b a := by
  intro a b
  by_cases hab : a = b
  · subst hab
    rfl
  · unfold longest_common_prefix
    rw [if_neg hab, if_neg (fun h => hab h.symm)]
    unfold lcpScan
    rw [firstDiff_comm b a]
    cases hfd : firstDiff a b with
    | some i =>
      show decodePrefix a i = decodePrefix b i
      exact decodePrefix_congr (firstDiff_take hfd)
    | none =>
      show (if byteLen a < byteLen b then some a else some b) =
        (if byteLen b < byteLen a then some b else some a)
      rcases firstDiff_none_prefix hfd with hp | hp
      · have hne : byteLen a ≠ byteLen b :=
          fun he => hab (eq_of_prefix_of_byteLen_eq hp he)
        have hlt : byteLen a < byteLen b :=
          Nat.lt_of_le_of_ne (prefix_byteLen_le hp) hne
        rw [if_pos hlt, if_neg (Nat.not_lt.mpr (Nat.le_of_lt hlt))]
      · have hne : byteLen b ≠ byteLen a :=
          fun he => hab (eq_of_prefix_of_byteLen_eq hp he).symm
        have hlt : byteLen b < byteLen a :=
          Nat.lt_of_le_of_ne (prefix_byteLen_le hp) hne
        rw [if_neg (Nat.not_lt.mpr (Nat.le_of_lt hlt)), if_pos hlt]

/-- C8 (counterexample): the usage path and the result path terminate with
the SAME exit status.  With zero arguments `main` returns `()` after
printing the usage line, and with one argument it returns `()` after
printing the result, so both runs exit with status 0: there is no
distinguishing exit status. -/
theorem main_exit_status_not_distinguishing :
    mainRun [] = MainOut.usage ∧
      mainRun [['a']] = MainOut.printed ['a'] ∧
      exitCode (mainRun []) = exitCode (mainRun [['a']]) :=
  ⟨rfl, rfl, rfl⟩

/-- C8 (amended): with zero arguments `main` writes the one-line usage
message to the error stream and nothing to standard output, and exits
with status 0 — the same status as any run that prints a result; the two
outcomes are distinguished by which stream is written, not by the exit
status. -/
theorem main_usage_goes_to_stderr_same_exit :
    errStream (mainRun []) = some usageLine ∧
      outStream (mainRun []) = none ∧
      exitCode (mainRun []) = 0 ∧
      ∀ (args : List (List Char)) (l : List Char),
        mainRun args = MainOut.printed l →
        exitCode (mainRun args) = 0 ∧ errStream (mainRun args) = none := by
  refine ⟨rfl, rfl, rfl, fun args l h => ?_⟩
  rw [h]
  exact ⟨rfl, rfl⟩

/-- C8 (witness): a run that prints a result, instantiating the amended
theorem's final clause at the one-argument input. -/
theorem main_usage_goes_to_stderr_same_exit_witness :
    mainRun [['a']] = MainOut.printed ['a'] ∧
      exitCode (mainRun [['a']]) = 0 ∧ errStream (mainRun [['a']]) = none :=
  ⟨rfl, main_usage_goes_to_stderr_same_exit.2.2.2 [['a']] ['a'] rfl⟩

/-- C9: when the character scan finds no difference and the two inputs
have equal byte length, the scan's final comparison takes its `else`
branch and returns the second argument: the instrumented scan reports
that the result aliases the second argument — which distinguishes the
implemented tie choice from a variant returning the first — and the
returned value is `some b`.  (When the `ptr::eq` fast path fires
instead, the two arguments are one and the same reference, so returning
`a` is returning `b`.) -/
theorem longest_common_prefix_tie_aliases_second :
    ∀ a b : List Char, firstDiff a b = none → byteLen a = byteLen b →
      lcpScanReturn a b = Aliased.second ∧
      longest_common_prefix a b = some b := by
  intro a b h hl
  constructor
  · unfold lcpScanReturn
    rw [h]
    show (if byteLen a < byteLen b then Aliased.first else Aliased.second) =
      Aliased.second
    rw [if_neg (by omega)]
  · have hab : a = b := by
      rcases firstDiff_none_prefix h with hp | hp
      · exact eq_of_prefix_of_byteLen_eq hp hl
      · exact (eq_of_prefix_of_byteLen_eq hp hl.symm).symm
    subst hab
    exact longest_common_prefix_self a

/-- C9 (witness): the tie theorem instantiated at the concrete pair
"x", "x", where the scan finds no difference and the byte lengths agree. -/
theorem longest_common_prefix_tie_aliases_second_witness :
    lcpScanReturn ['x'] ['x'] = Aliased.second ∧
      longest_common_prefix ['x'] ['x'] = some ['x'] :=
  longest_common_prefix_tie_aliases_second ['x'] ['x'] (by decide) rfl

/-- C10: when every character of both inputs occupies a single byte (so
character index and byte index coincide), `longest_common_prefix` never
panics and returns exactly the character-wise longest common prefix: a
common prefix of both inputs that is at least as long as every other
common prefix. -/
theorem longest_common_prefix_ascii_correct :
    ∀ a b : List Char,
      (∀ c ∈ a, c.utf8Size = 1) → (∀ c ∈ b, c.utf8Size = 1) →
      longest_common_prefix a b = some (charwiseLcp a b) ∧
      charwiseLcp a b <+: a ∧ charwiseLcp a b <+: b ∧
      ∀ q : List Char, q <+: a → q <+: b →
        q.length ≤ (charwiseLcp a b).length :=
  fun a b ha hb =>
    ⟨lcp_eq_charwiseLcp_of_ascii ha hb, charwiseLcp_prefix_left a b,
      charwiseLcp_prefix_right a b,
      fun _ hqa hqb => (prefix_charwiseLcp hqa hqb).length_le⟩

/-- C10 (witness): the single-byte theorem instantiated at the concrete
ASCII pair "hey", "hi". -/
theorem longest_common_prefix_ascii_correct_witness :
    longest_common_prefix ['h', 'e', 'y'] ['h', 'i'] =
      some (charwiseLcp ['h', 'e', 'y'] ['h', 'i']) :=
  (longest_common_prefix_ascii_correct ['h', 'e', 'y'] ['h', 'i']
    (by decide) (by decide)).1

end Lcp
